import Mathlib

/-!
Shallow embedding of the ceylonmine backend's route handlers and parsing
helpers (contact.py, license.py, minerpage.py, unlicensedminer.py), together
with proofs of the specification's claims about them.

Strings are modelled as Lean `String`s (lists of characters); the embedding
models the ASCII behaviour of Python's text operations (`str.lower`,
`re.search`, `float`, `strptime`), which covers every value the specification
and the handlers deal in.  Python `float` results are modelled exactly as
rationals.  The remote database and storage service are modelled as explicit
inputs (the rows a query would return, whether an upload succeeds), and each
handler additionally returns the list of remote calls it performed.
-/

set_option maxRecDepth 40000
set_option maxHeartbeats 1000000

namespace CeylonMine

abbrev Chars := List Char

/-- ASCII decimal digit, as matched by `\d` on ASCII text. -/
def isDigitC (c : Char) : Bool := 48 ≤ c.toNat && c.toNat ≤ 57

/-- Character class of the `[\d.]+` pattern in `clean_numeric_value`. -/
def numChar (c : Char) : Bool := isDigitC c || c == '.'

/-- Python `str.lower` on ASCII characters. -/
def pyLower (c : Char) : Char :=
  if 65 ≤ c.toNat ∧ c.toNat ≤ 90 then Char.ofNat (c.toNat + 32) else c

/-- The whitespace stripped by Python `str.strip`. -/
def pySpace (c : Char) : Bool :=
  c == ' ' || c == '\t' || c == '\n' || c == '\r' || c == '\x0b' || c == '\x0c'

/-- `isPre u v` holds when `u` is a prefix of `v` (Python `v.startswith(u)`). -/
def isPre : Chars → Chars → Bool
  | [], _ => true
  | _ :: _, [] => false
  | a :: as, b :: bs => a == b && isPre as bs

/-- `occurs u v` holds when `u` occurs as a contiguous substring of `v`
(Python `u in v`). -/
def occurs (needle : Chars) : Chars → Bool
  | [] => needle.isEmpty
  | c :: cs => isPre needle (c :: cs) || occurs needle cs

/-- Fuel-indexed worker for `removeAll`; the list shrinks at every step, so
fuel `l.length` always suffices. -/
def removeAllF (old : Chars) : Nat → Chars → Chars
  | _, [] => []
  | 0, l => l
  | fuel + 1, c :: cs =>
    if isPre old (c :: cs) then removeAllF old fuel (List.drop (old.length - 1) cs)
    else c :: removeAllF old fuel cs

/-- Python `v.replace(old, '')` for a nonempty `old`: delete every
non-overlapping occurrence of `old` in `v`, scanning left to right. -/
def removeAll (old l : Chars) : Chars := removeAllF old l.length l

/-- Python `str.strip`: drop whitespace from both ends. -/
def pyStrip (l : Chars) : Chars :=
  ((l.dropWhile pySpace).reverse.dropWhile pySpace).reverse

/-- `re.search` for a pattern of the form `[c]+`: the first maximal run of
characters satisfying `p`. -/
def firstRun (p : Char → Bool) : Chars → Option Chars
  | [] => none
  | c :: cs => if p c then some (c :: cs.takeWhile p) else firstRun p cs

/-- Value of a run of decimal digits (Python `int` on a digit string). -/
def digitsToNat (l : Chars) : Nat :=
  l.foldl (fun a c => 10 * a + (c.toNat - 48)) 0

/-- Exact value of a digits-and-dot string such as `12.5`, `5.` or `.5`: the
digits before the dot, plus the digits after it over the matching power of
ten. -/
def numValue (cs : Chars) : ℚ :=
  (digitsToNat (cs.takeWhile (fun c => c ≠ '.')) : ℚ) +
    (digitsToNat ((cs.dropWhile (fun c => c ≠ '.')).drop 1) : ℚ) /
      (10 ^ ((cs.dropWhile (fun c => c ≠ '.')).drop 1).length : ℚ)

/-- Python `float` applied to a string drawn from `[\d.]`: it succeeds exactly
when there is at least one digit and at most one dot. -/
def pyFloat (cs : Chars) : Option ℚ :=
  if cs.count '.' ≤ 1 ∧ cs.any isDigitC then some (numValue cs) else none

/-- Python `s.split(sep)` on a list of characters. -/
def splitOnChar (sep : Char) : Chars → List Chars
  | [] => [[]]
  | c :: cs =>
    match splitOnChar sep cs with
    | [] => [[c]]
    | p :: ps => if c = sep then [] :: p :: ps else (c :: p) :: ps

/-- Python `round` (round half to even) on an exact rational, computed from
the numerator and denominator so that it evaluates inside the kernel. -/
def pyRound (q : ℚ) : ℤ :=
  let f := Int.fdiv q.num (q.den : ℤ)
  let rem := q.num - f * (q.den : ℤ)
  if 2 * rem < (q.den : ℤ) then f
  else if (q.den : ℤ) < 2 * rem then f + 1
  else if f % 2 = 0 then f else f + 1

/-! ## Dates (`datetime.date` with proleptic Gregorian ordinals) -/

structure Date where
  year : Nat
  month : Nat
  day : Nat
deriving DecidableEq, Repr

def leapYear (y : Nat) : Bool := y % 4 = 0 && (y % 100 ≠ 0 || y % 400 = 0)

def daysInMonth (y m : Nat) : Nat :=
  if m = 2 then (if leapYear y then 29 else 28)
  else if m = 4 ∨ m = 6 ∨ m = 9 ∨ m = 11 then 30
  else 31

/-- Cumulative days before month `m` in a non-leap year. -/
def daysBeforeMonth (m : Nat) : Nat :=
  match m with
  | 1 => 0 | 2 => 31 | 3 => 59 | 4 => 90 | 5 => 120 | 6 => 151
  | 7 => 181 | 8 => 212 | 9 => 243 | 10 => 273 | 11 => 304 | _ => 334

/-- Proleptic Gregorian ordinal of a date (0001-01-01 is day 1), as in
Python's `date.toordinal`. -/
def toOrdinal (d : Date) : Nat :=
  let y := d.year - 1
  365 * y + y / 4 - y / 100 + y / 400 +
    daysBeforeMonth d.month +
    (if leapYear d.year ∧ 2 < d.month then 1 else 0) + d.day

/-- Inverse of `toOrdinal` (Howard Hinnant's `civil_from_days`, shifted so
everything stays in `Nat` for years from 1 CE on). -/
def ordinalToDate (n : Nat) : Date :=
  let z := n + 305
  let era := z / 146097
  let doe := z % 146097
  let yoe := (doe - doe / 1460 + doe / 36524 - doe / 146097) / 365
  let y := yoe + era * 400
  let doy := doe - (365 * yoe + yoe / 4 - yoe / 100)
  let mp := (5 * doy + 2) / 153
  let d := doy - (153 * mp + 2) / 5 + 1
  let m := if mp < 10 then mp + 3 else mp - 9
  if m ≤ 2 then ⟨y + 1, m, d⟩ else ⟨y, m, d⟩

/-- `date + timedelta(days = k)`: Python dates live between 0001-01-01
(ordinal 1) and 9999-12-31 (ordinal 3652059), and an addition that lands
outside that range raises `OverflowError`, modelled as `none` (an oversized
`timedelta` raises the same exception and takes the same path). -/
def addDays (d : Date) (k : ℤ) : Option Date :=
  if 1 ≤ (toOrdinal d : ℤ) + k ∧ (toOrdinal d : ℤ) + k ≤ 3652059 then
    some (ordinalToDate ((toOrdinal d : ℤ) + k).toNat)
  else none

def pad2 (n : Nat) : String := if n < 10 then "0" ++ toString n else toString n

/-- `date.strftime('%Y-%m-%d')` on Linux: `%m` and `%d` zero-pad to two
digits, while glibc's `%Y` prints the year unpadded (`date(99,1,1)` formats
as `99-01-01`). -/
def formatDate (d : Date) : String :=
  toString d.year ++ "-" ++ pad2 d.month ++ "-" ++ pad2 d.day

def monAbbrev (m : Nat) : String :=
  match m with
  | 1 => "Jan" | 2 => "Feb" | 3 => "Mar" | 4 => "Apr" | 5 => "May" | 6 => "Jun"
  | 7 => "Jul" | 8 => "Aug" | 9 => "Sep" | 10 => "Oct" | 11 => "Nov" | 12 => "Dec"
  | _ => ""

/-- `date.strftime('%b %d, %Y')` on Linux (glibc `%Y` unpadded). -/
def formatMonDate (d : Date) : String :=
  monAbbrev d.month ++ " " ++ pad2 d.day ++ ", " ++ toString d.year

/-- `minerpage.parse_period`: lower-case, take the first run of digits (none
found means the default `1`), divide by 12 when the string mentions `month`;
the `year`/`yr`/`y` branch and the final branch both return the bare number. -/
def parse_period (s : String) : ℚ :=
  match firstRun isDigitC (s.data.map pyLower) with
  | none => 1
  | some ds =>
    if occurs "month".data (s.data.map pyLower) then (digitsToNat ds : ℚ) / 12
    else if occurs "year".data (s.data.map pyLower) || occurs "yr".data (s.data.map pyLower)
        || occurs "y".data (s.data.map pyLower) then (digitsToNat ds : ℚ)
    else (digitsToNat ds : ℚ)

/-- `datetime.strptime(s, '%Y-%m-%d').date()` on ASCII text: three dash-joined
digit runs — `%Y` matches exactly four digits, `%m` and `%d` one or two —
with month, day and year in calendar range. -/
def parseYMD (cs : Chars) : Option Date :=
  match splitOnChar '-' cs with
  | [ys, ms, ds] =>
    if ys ≠ [] ∧ ys.length = 4 ∧ ys.all isDigitC ∧
       ms ≠ [] ∧ ms.length ≤ 2 ∧ ms.all isDigitC ∧
       ds ≠ [] ∧ ds.length ≤ 2 ∧ ds.all isDigitC then
      if 1 ≤ digitsToNat ys ∧ 1 ≤ digitsToNat ms ∧ digitsToNat ms ≤ 12 ∧
         1 ≤ digitsToNat ds ∧ digitsToNat ds ≤ daysInMonth (digitsToNat ys) (digitsToNat ms) then
        some ⟨digitsToNat ys, digitsToNat ms, digitsToNat ds⟩
      else none
    else none
  | _ => none

/-- The inputs `minerpage.parse_date` distinguishes: `None`, a `datetime`
value, or a string. -/
inductive DateInput where
  | dnone
  | ddt (d : Date)
  | dstr (s : String)
deriving DecidableEq

/-- `minerpage.parse_date`: `None` and the empty string are falsy and yield
`None`; a `datetime` yields its date; a string with a `T` is parsed up to the
`T`, otherwise whole; any parse failure yields `None` instead of raising. -/
def parse_date : DateInput → Option Date
  | .dnone => none
  | .ddt d => some d
  | .dstr s =>
    if s = "" then none
    else if s.data.contains 'T' then parseYMD (s.data.takeWhile (fun c => c ≠ 'T'))
    else parseYMD s.data

/-! ## `license.clean_numeric_value` -/

/-- The substrings `clean_numeric_value` strips, in the source's order. -/
def strippedTokens : List Chars :=
  [",".data, "usd".data, "$".data, "tons/day".data, "m".data, "%".data,
   "years".data, "year".data]

/-- The replacement stage of `clean_numeric_value`. -/
def cleanSteps (l : Chars) : Chars :=
  strippedTokens.foldl (fun acc t => removeAll t acc) l

/-- The string branch of `clean_numeric_value`: lower-case and strip, delete
the token substrings in order, strip again, extract the first `[\d.]+` run and
convert it with `float` (conversion failure yields `None`). -/
def cleanNumericStr (s : String) : Option ℚ :=
  match firstRun numChar (pyStrip (cleanSteps (pyStrip (s.data.map pyLower)))) with
  | some run => pyFloat run
  | none => none

/-- The value space `clean_numeric_value` inspects with `isinstance`. -/
inductive PyVal where
  | pnone
  | pint (z : ℤ)
  | pfloat (q : ℚ)
  | pstr (s : String)
deriving DecidableEq

/-- `license.clean_numeric_value`, value level: `None` for `None`,
`float(value)` for numbers, the cleaning pipeline for strings.  This is the
value the helper returns whenever no exception escapes it;
`clean_numeric_value_exc` below also models the one escaping exception. -/
def clean_numeric_value : PyVal → Option ℚ
  | .pnone => none
  | .pint z => some (z : ℚ)
  | .pfloat q => some q
  | .pstr s => cleanNumericStr s

/-- The identifying inputs a request carries: the `userId` cookie and the
`X-User-ID` header. -/
structure Req where
  cookieUserId : Option String
  headerUserId : Option String
deriving DecidableEq

/-- Python `a or b` on two optional strings (an empty string is falsy). -/
def pyOr (a b : Option String) : Option String :=
  match a with
  | some s => if s = "" then b else some s
  | none => b

/-- Python falsiness of an optional string. -/
def falsyStr (a : Option String) : Bool :=
  match a with
  | none => true
  | some s => s = ""

/-- `request.cookies.get('userId') or request.headers.get('X-User-ID')`,
shared by every handler's auth check. -/
def get_user_id (r : Req) : Option String := pyOr r.cookieUserId r.headerUserId

/-- The remote database/storage operations a handler can perform. -/
inductive Call where
  | selUsers
  | selApplication
  | selRoyalty
  | selComments
  | selDocuments
  | selContact
  | insApplication
  | insContact (name email message : String)
  | insDocuments (minerId docName : String)
  | updUsers
  | listBuckets
  | upload (name : String)
  | getUrl (name : String)
deriving DecidableEq

/-- A handler's JSON response: an error body `{error: msg}` with a status
code, or a success payload with a status code. -/
inductive HResp (α : Type) where
  | err (code : Nat) (msg : String)
  | ok (code : Nat) (payload : α)
deriving DecidableEq

/-! ## `minerpage.py` handlers -/

/-- The columns `/miner/license` reads from the `users` table. -/
structure UserRow where
  license_status : String
  active_date : Option String
deriving DecidableEq

/-- The columns `/miner/license` reads from the `application` table; a `none`
period means the key is absent and the `'1 year'` default applies. -/
structure AppRow where
  exploration_license_no : String
  period_of_validity : Option String
deriving DecidableEq

/-- The remote rows visible to the `/miner/*` handlers for the requesting
user (a `none` table means the query returned no rows). -/
structure MinerDB where
  userRow : Option UserRow
  appRow : Option AppRow
deriving DecidableEq

/-- The success body of `/miner/license`. -/
structure LicPayload where
  license_status : String
  license_number : String
  active_date : String
  period_of_validity : String
  expires : String
deriving DecidableEq

/-- `minerpage.get_license`: auth check, fetch the user row, parse its active
date, fetch the application row, then
`expiry = active_date + timedelta(days=round(365 * parse_period(period)))`.
When that addition overflows Python's date range the exception is caught by
the handler's blanket `except` and answered as a 500, after both selects
already ran. -/
def get_license (r : Req) (db : MinerDB) : HResp LicPayload × List Call :=
  if falsyStr (get_user_id r) then (.err 401 "User ID not provided", [])
  else
    match db.userRow with
    | none => (.err 404 "User not found", [.selUsers])
    | some u =>
      match parse_date (match u.active_date with | none => .dnone | some s => .dstr s) with
      | none => (.err 400 "Invalid or missing active date", [.selUsers])
      | some activeDate =>
        match db.appRow with
        | none => (.err 404 "No application found", [.selUsers, .selApplication])
        | some a =>
          match addDays activeDate
              (pyRound (365 * parse_period (a.period_of_validity.getD "1 year"))) with
          | none => (.err 500 "Internal server error", [.selUsers, .selApplication])
          | some expiryDate =>
            (.ok 200 ⟨u.license_status, a.exploration_license_no, formatDate activeDate,
                      a.period_of_validity.getD "1 year", formatDate expiryDate⟩,
             [.selUsers, .selApplication])

/-- `minerpage.get_royalty`: auth check, fetch the royalty row, answer with
the amount and the hard-coded due date. -/
def get_royalty (r : Req) (royaltyRow : Option ℚ) : HResp (ℚ × String) × List Call :=
  if falsyStr (get_user_id r) then (.err 401 "User ID not provided", [])
  else
    match royaltyRow with
    | none => (.err 404 "No royalty data found", [.selRoyalty])
    | some amt => (.ok 200 (amt, "2025-03-15"), [.selRoyalty])

/-- A row of the `comments` table as the announcement handlers read it
(fields reached through `.get` may be absent). -/
structure CommentRow where
  text : Option String
  created_at : Option String
deriving DecidableEq

/-- `minerpage.get_announcements`: auth check, then format the (already
ordered and limited) rows the query returned; unparseable dates display as
the empty string. -/
def miner_get_announcements (r : Req) (comments : List CommentRow) :
    HResp (List (String × String) × List String) × List Call :=
  if falsyStr (get_user_id r) then (.err 401 "User ID not provided", [])
  else
    let items := comments.map (fun item =>
      let dateStr := item.created_at.getD ""
      let dateDisplay :=
        if dateStr ≠ "" then
          match parse_date (.dstr dateStr) with
          | some d => formatMonDate d
          | none => ""
        else ""
      (item.text.getD "No text", dateDisplay))
    (.ok 200 (items, ["Pending", "Submitted", "Completed", "Approved"]), [.selComments])

/-! ## `unlicensedminer.py` handlers -/

/-- `unlicensedminer.get_user_status`: auth check, fetch the application's
status column for the miner, 404 when no application exists. -/
def get_user_status (r : Req) (appStatus : Option String) :
    HResp (String × String) × List Call :=
  if falsyStr (get_user_id r) then (.err 401 "Authentication required", [])
  else
    match appStatus with
    | none => (.err 404 "Application not found", [.selApplication])
    | some st => (.ok 200 (st, (get_user_id r).getD ""), [.selApplication])

/-- `unlicensedminer.get_application_details`: auth check, fetch the full
application row, 404 when none exists. -/
def get_application_details {α : Type} (r : Req) (row : Option α) :
    HResp α × List Call :=
  if falsyStr (get_user_id r) then (.err 401 "Authentication required", [])
  else
    match row with
    | none => (.err 404 "Application not found", [.selApplication])
    | some a => (.ok 200 a, [.selApplication])

/-- `unlicensedminer.get_documents`: auth check, then return the document
rows, an empty list included. -/
def get_documents {α : Type} (r : Req) (docs : List α) :
    HResp (List α) × List Call :=
  if falsyStr (get_user_id r) then (.err 401 "Authentication required", [])
  else (.ok 200 docs, [.selDocuments])

/-- An uploaded file as the handlers see it. -/
structure FileUpload where
  filename : String
  contentType : String
  content : String
deriving DecidableEq

/-- Last component of `s.split('.')` (Python `split('.')[-1]`): the whole
string when there is no dot. -/
def lastSplitComponent (s : String) : String :=
  ⟨(splitOnChar '.' s.data).getLastD []⟩

/-- `unlicensedminer.upload_document`: auth check, 400 when no file part or an
empty filename, otherwise upload under `uuid.ext` without any extension check
and insert a document row.  `uuidStr` stands for the generated UUID, `urlOf`
for the storage service's public-URL map, and `uploadOk = false` for a raised
storage error (caught into a 500). -/
def upload_document (r : Req) (file : Option FileUpload) (descr : Option String)
    (uuidStr : String) (urlOf : String → String) (uploadOk : Bool) :
    HResp String × List Call :=
  if falsyStr (get_user_id r) then (.err 401 "Authentication required", [])
  else
    match file with
    | none => (.err 400 "No file uploaded", [])
    | some f =>
      let _ := descr.getD ""
      if f.filename = "" then (.err 400 "No selected file", [])
      else
        let ext := lastSplitComponent f.filename
        let uniqueName := uuidStr ++ "." ++ ext
        if uploadOk then
          (.ok 200 (urlOf uniqueName),
           [.upload uniqueName, .getUrl uniqueName,
            .insDocuments ((get_user_id r).getD "") f.filename])
        else (.err 500 "Document upload error", [.upload uniqueName])

/-- The date part accepted by `datetime.fromisoformat`: a strictly padded
`YYYY-MM-DD` (exactly 4-2-2 digits), unlike `strptime`'s lenient `%m`/`%d`. -/
def parseIsoDate (cs : Chars) : Option Date :=
  match splitOnChar '-' cs with
  | [ys, ms, ds] =>
    if ys.length = 4 ∧ ys.all isDigitC ∧ ms.length = 2 ∧ ms.all isDigitC ∧
       ds.length = 2 ∧ ds.all isDigitC then
      if 1 ≤ digitsToNat ys ∧ 1 ≤ digitsToNat ms ∧ digitsToNat ms ≤ 12 ∧
         1 ≤ digitsToNat ds ∧
         digitsToNat ds ≤ daysInMonth (digitsToNat ys) (digitsToNat ms) then
        some ⟨digitsToNat ys, digitsToNat ms, digitsToNat ds⟩
      else none
    else none
  | _ => none

/-- `unlicensedminer.get_announcements`: auth check, then format every row;
a row whose `created_at` is present but not ISO-parseable raises inside the
loop and turns the whole response into a 500. -/
def unlic_get_announcements (r : Req) (comments : List CommentRow) :
    HResp (List (String × String)) × List Call :=
  if falsyStr (get_user_id r) then (.err 401 "Authentication required", [])
  else
    let fmt : CommentRow → Option (String × String) := fun item =>
      let dateStr := item.created_at.getD ""
      if dateStr ≠ "" then
        match parseIsoDate (dateStr.data.takeWhile (fun c => c ≠ 'T' ∧ c ≠ ' ')) with
        | some d => some (item.text.getD "", formatMonDate d)
        | none => none
      else some (item.text.getD "", "")
    match comments.mapM fmt with
    | some items => (.ok 200 items, [.selComments])
    | none => (.err 500 "Internal server error", [.selComments])

/-! ## `license.py`: file relay and `contact.py` handlers -/

/-- `license.ALLOWED_EXTENSIONS`. -/
def ALLOWED_EXTENSIONS : List String := ["pdf", "png", "jpg", "jpeg"]

/-- `license.allowed_file`: the name has a dot and the piece after the last
dot, lower-cased, is an allowed extension. -/
def allowed_file (filename : String) : Bool :=
  filename.data.contains '.' &&
    ALLOWED_EXTENSIONS.contains
      ⟨((filename.data.reverse.takeWhile (fun c => c ≠ '.')).reverse).map pyLower⟩

/-- Split a character list on runs of whitespace, dropping empty pieces
(Python `str.split()` with no argument). -/
def splitWhite (l : Chars) : List Chars :=
  (l.foldr
    (fun c acc =>
      if pySpace c then [] :: acc
      else
        match acc with
        | [] => [[c]]
        | w :: ws => (c :: w) :: ws)
    []).filter (fun w => w ≠ [])

/-- ASCII model of `werkzeug.utils.secure_filename` on Linux: path
separators become spaces, whitespace runs collapse to single underscores,
every character outside `[A-Za-z0-9._-]` is dropped, and leading or trailing
`.` and `_` are stripped. -/
def secure_filename (s : String) : String :=
  let joined :=
    List.intercalate "_".data (splitWhite (s.data.map (fun c => if c = '/' then ' ' else c)))
  let kept := joined.filter (fun c => c.isAlpha || isDigitC c || c = '.' || c = '_' || c = '-')
  String.mk (((kept.dropWhile (fun c => c = '.' ∨ c = '_')).reverse.dropWhile
    (fun c => c = '.' ∨ c = '_')).reverse)

/-- `license.save_file`: a missing file or a disallowed extension falls to the
final `return None` without touching storage; otherwise list the buckets
(`buckets = none` models a raised listing error), upload, and return the
public URL (`uploadOk = false` models a raised or empty upload response). -/
def save_file (file : Option FileUpload) (buckets : Option (List String))
    (uuidStr : String) (urlOf : String → String) (uploadOk : Bool) :
    Option String × List Call :=
  match file with
  | none => (none, [])
  | some f =>
    if allowed_file f.filename then
      let filename := secure_filename f.filename
      let ext := lastSplitComponent filename
      let uniqueName := uuidStr ++ "." ++ ext
      match buckets with
      | none => (none, [.listBuckets])
      | some _ =>
        if uploadOk then
          (some (urlOf uniqueName), [.listBuckets, .upload uniqueName, .getUrl uniqueName])
        else (none, [.listBuckets, .upload uniqueName])
    else (none, [])

/-- A contact-form submission as `request.json` delivers it (fields may be
absent). -/
structure ContactPayload where
  name : Option String
  email : Option String
  message : Option String
deriving DecidableEq

/-- A row of the `contact_data` table. -/
structure ContactRow where
  name : String
  email : String
  message : String
deriving DecidableEq

/-- `contact.submit_contact`: 400 with no insert when any of name/email/
message is missing or empty, otherwise insert and answer 201 (or 500 when the
service returns no data, modelled by `insertRes = []`). -/
def submit_contact (payload : ContactPayload) (insertRes : List ContactRow) :
    HResp (List ContactRow) × List Call :=
  if falsyStr payload.name || falsyStr payload.email || falsyStr payload.message then
    (.err 400 "Missing required fields", [])
  else
    let row : Call := .insContact (payload.name.getD "") (payload.email.getD "")
      (payload.message.getD "")
    match insertRes with
    | [] => (.err 500 "Failed to submit contact message", [row])
    | rs => (.ok 201 rs, [row])

/-- `contact.get_contacts`: the query always runs; an empty result is falsy
and answers 500, a non-empty one answers 200 with the rows. -/
def get_contacts (rows : List ContactRow) : HResp (List ContactRow) × List Call :=
  match rows with
  | [] => (.err 500 "Failed to fetch contacts", [.selContact])
  | rs => (.ok 200 rs, [.selContact])

/-! ## Predicates used to state the claims -/

/-- Every character is ASCII; the embedding models Python's text handling on
this fragment (`\d` and `float` additionally accept non-ASCII Unicode
digits, which no value in this system contains). -/
abbrev allAscii (l : Chars) : Prop := ∀ c ∈ l, c.toNat < 128

/-- No character of the list is a decimal digit. -/
abbrev noDigits (l : Chars) : Prop := ∀ c ∈ l, isDigitC c = false

/-- `l` is a concatenation of tokens drawn from the stripped set. -/
def isTokenJoin (l : Chars) : Prop :=
  ∃ ts : List Chars, (∀ t ∈ ts, t ∈ strippedTokens) ∧ l = ts.flatten

/-- `l` carries the run `n` intact, surrounded by characters outside the
`[\d.]` class; such a decomposition is what survives each stage of the
`clean_numeric_value` pipeline. -/
def goodSplit (n l : Chars) : Prop :=
  ∃ a b, l = a ++ n ++ b ∧ (∀ c ∈ a, numChar c = false) ∧ (∀ c ∈ b, numChar c = false)

/-! ## Character-level lemmas -/

theorem toNat_ofNat_small (n : Nat) (h : n < 55296) : (Char.ofNat n).toNat = n := by
  have hv : n.isValidChar := Or.inl h
  simp only [Char.ofNat, hv, dif_pos, Char.ofNatAux, Char.toNat, UInt32.toNat, UInt32.ofNat',
    BitVec.toNat_ofNatLt]

theorem isDigitC_iff {c : Char} : isDigitC c = true ↔ 48 ≤ c.toNat ∧ c.toNat ≤ 57 := by
  simp [isDigitC]

theorem char_eq_of_toNat {c d : Char} (h : c.toNat = d.toNat) : c = d := by
  apply Char.ext
  exact UInt32.ext h

theorem numChar_iff {c : Char} :
    numChar c = true ↔ (48 ≤ c.toNat ∧ c.toNat ≤ 57) ∨ c.toNat = 46 := by
  constructor
  · intro h
    rcases Bool.or_eq_true .. |>.mp h with h | h
    · exact Or.inl (isDigitC_iff.mp h)
    · refine Or.inr ?_
      have : c = '.' := eq_of_beq h
      subst this; rfl
  · intro h
    rcases h with ⟨h1, h2⟩ | h
    · exact Bool.or_eq_true .. |>.mpr (Or.inl (isDigitC_iff.mpr ⟨h1, h2⟩))
    · have : c = '.' := char_eq_of_toNat (by simpa using h)
      subst this; rfl

theorem pyLower_of_numChar {c : Char} (h : numChar c = true) : pyLower c = c := by
  rcases numChar_iff.mp h with ⟨h1, h2⟩ | h46 <;>
    · unfold pyLower
      rw [if_neg]; omega

theorem pyLower_toNat_ge {c : Char} (h : 65 ≤ c.toNat ∧ c.toNat ≤ 90) :
    (pyLower c).toNat = c.toNat + 32 := by
  unfold pyLower
  rw [if_pos h, toNat_ofNat_small]
  omega

theorem isDigitC_pyLower {c : Char} (h : isDigitC (pyLower c) = true) : isDigitC c = true := by
  by_cases hc : 65 ≤ c.toNat ∧ c.toNat ≤ 90
  · exfalso
    have := isDigitC_iff.mp h
    rw [pyLower_toNat_ge hc] at this
    omega
  · unfold pyLower at h
    rwa [if_neg hc] at h

theorem numChar_pyLower {c : Char} (h : numChar (pyLower c) = true) : numChar c = true := by
  by_cases hc : 65 ≤ c.toNat ∧ c.toNat ≤ 90
  · exfalso
    have := numChar_iff.mp h
    rw [pyLower_toNat_ge hc] at this
    omega
  · unfold pyLower at h
    rwa [if_neg hc] at h

theorem pySpace_of_numChar {c : Char} (h : numChar c = true) : pySpace c = false := by
  have h1 := numChar_iff.mp h
  simp only [pySpace, Bool.or_eq_false_iff, beq_eq_false_iff_ne]
  refine ⟨⟨⟨⟨⟨?_, ?_⟩, ?_⟩, ?_⟩, ?_⟩, ?_⟩ <;>
    · intro he
      subst he
      revert h1
      decide

/-! ## Prefix and run lemmas -/

theorem isPre_iff {u v : Chars} : isPre u v = true ↔ u <+: v := by
  induction u generalizing v with
  | nil => simp [isPre]
  | cons a as ih =>
    cases v with
    | nil => simp [isPre]
    | cons b bs =>
      simp only [isPre, Bool.and_eq_true, beq_iff_eq, List.cons_prefix_cons]
      exact and_congr Iff.rfl ih

theorem isPre_of_le {u x y : Chars} (h : isPre u (x ++ y) = true)
    (hl : u.length ≤ x.length) : isPre u x = true := by
  rw [isPre_iff] at h ⊢
  exact List.prefix_of_prefix_length_le h (List.prefix_append x y) hl

theorem isPre_rev_of_le {u x y : Chars} (h : isPre u (x ++ y) = true)
    (hl : x.length ≤ u.length) : isPre x u = true := by
  rw [isPre_iff] at h ⊢
  exact List.prefix_of_prefix_length_le (List.prefix_append x y) h hl

theorem isPre_append_right {u v w : Chars} (h : isPre u v = true) :
    isPre u (v ++ w) = true := by
  rw [isPre_iff] at h ⊢
  exact h.trans (List.prefix_append v w)

theorem isPre_false_of_head {o x : Char} {os rest : Chars}
    (hne : o ≠ x) : isPre (o :: os) (x :: rest) = false := by
  simp only [isPre, Bool.and_eq_false_iff]
  exact Or.inl (beq_eq_false_iff_ne.mpr hne)

theorem takeWhile_append_of_all {p : Char → Bool} {n b : Chars}
    (h : ∀ c ∈ n, p c = true) : (n ++ b).takeWhile p = n ++ b.takeWhile p := by
  induction n with
  | nil => simp
  | cons x xs ih =>
    have hx : p x = true := h x (by simp)
    simp only [List.cons_append, List.takeWhile_cons, hx, if_true, List.cons.injEq, true_and]
    exact ih (fun c hc => h c (by simp [hc]))

theorem takeWhile_eq_nil_of_none {p : Char → Bool} {b : Chars}
    (h : ∀ c ∈ b, p c = false) : b.takeWhile p = [] := by
  cases b with
  | nil => rfl
  | cons x xs =>
    have hx : p x = false := h x (by simp)
    simp [List.takeWhile_cons, hx]

theorem firstRun_goodParts {p : Char → Bool} {a n b : Chars}
    (ha : ∀ c ∈ a, p c = false) (hn : ∀ c ∈ n, p c = true) (hne : n ≠ [])
    (hb : ∀ c ∈ b, p c = false) : firstRun p (a ++ n ++ b) = some n := by
  induction a with
  | nil =>
    cases n with
    | nil => exact absurd rfl hne
    | cons x xs =>
      have hx : p x = true := hn x (by simp)
      simp only [List.nil_append, List.cons_append, firstRun, hx, if_true, Option.some.injEq,
        List.append_eq]
      rw [takeWhile_append_of_all (fun c hc => hn c (by simp [hc])),
        takeWhile_eq_nil_of_none hb, List.append_nil]
  | cons c cs ih =>
    have hc : p c = false := ha c (by simp)
    simp only [List.cons_append, firstRun, hc]
    exact ih (fun x hx => ha x (by simp [hx]))

theorem firstRun_subset {p : Char → Bool} {l r : Chars}
    (h : firstRun p l = some r) : ∀ c ∈ r, c ∈ l := by
  induction l with
  | nil => simp [firstRun] at h
  | cons c cs ih =>
    cases hc : p c with
    | true =>
      simp only [firstRun, hc, if_true, Option.some.injEq] at h
      subst h
      intro x hx
      rcases List.mem_cons.mp hx with hx | hx
      · simp [hx]
      · exact List.mem_cons_of_mem _ ((List.takeWhile_sublist p).subset hx)
    | false =>
      simp only [firstRun, hc, Bool.false_eq_true, if_false] at h
      intro x hx
      exact List.mem_cons_of_mem _ (ih h x hx)

/-! ## `removeAll` lemmas -/

theorem removeAllF_nil (old : Chars) (fuel : Nat) : removeAllF old fuel [] = [] := by
  cases fuel <;> rfl

theorem removeAllF_sublist (old : Chars) :
    ∀ fuel l, (removeAllF old fuel l).Sublist l := by
  intro fuel
  induction fuel with
  | zero => intro l; cases l <;> simp [removeAllF]
  | succ fuel ih =>
    intro l
    cases l with
    | nil => simp [removeAllF]
    | cons c cs =>
      rw [removeAllF]
      split
      · exact ((ih _).trans (List.drop_sublist _ _)).trans (List.sublist_cons_self c cs)
      · exact (ih cs).cons₂ c

theorem removeAll_sublist (old l : Chars) : (removeAll old l).Sublist l :=
  removeAllF_sublist old l.length l

theorem removeAll_subset {old l : Chars} : ∀ c ∈ removeAll old l, c ∈ l :=
  fun _ hc => (removeAll_sublist old l).subset hc

theorem removeAllF_irrel (old : Chars) :
    ∀ fuel₁ fuel₂ l, l.length ≤ fuel₁ → l.length ≤ fuel₂ →
      removeAllF old fuel₁ l = removeAllF old fuel₂ l := by
  intro fuel₁
  induction fuel₁ with
  | zero =>
    intro fuel₂ l h1 _
    have : l = [] := List.length_eq_zero.mp (Nat.le_zero.mp h1)
    subst this
    rw [removeAllF_nil, removeAllF_nil]
  | succ fuel ih =>
    intro fuel₂ l h1 h2
    cases l with
    | nil => rw [removeAllF_nil, removeAllF_nil]
    | cons c cs =>
      cases fuel₂ with
      | zero => simp at h2
      | succ fuel₂ =>
        rw [removeAllF, removeAllF]
        split
        · apply ih
          · simp only [List.length_drop]
            simp only [List.length_cons] at h1
            omega
          · simp only [List.length_drop]
            simp only [List.length_cons] at h2
            omega
        · rw [ih fuel₂ cs (by simp at h1; omega) (by simp at h2; omega)]

theorem removeAll_cons_pos {old : Chars} {c : Char} {cs : Chars}
    (h : isPre old (c :: cs) = true) :
    removeAll old (c :: cs) = removeAll old (List.drop (old.length - 1) cs) := by
  unfold removeAll
  rw [show (c :: cs).length = cs.length + 1 from rfl, removeAllF, if_pos h]
  exact removeAllF_irrel old cs.length _ _ (by simp [List.length_drop]) (le_refl _)

theorem removeAll_cons_neg {old : Chars} {c : Char} {cs : Chars}
    (h : isPre old (c :: cs) = false) :
    removeAll old (c :: cs) = c :: removeAll old cs := by
  unfold removeAll
  rw [show (c :: cs).length = cs.length + 1 from rfl, removeAllF, if_neg (by simp [h])]

theorem removeAll_numRun {old n : Chars} (hold : old ≠ [])
    (hnum : ∀ c ∈ old, numChar c = false) (hn : ∀ c ∈ n, numChar c = true) :
    ∀ b, removeAll old (n ++ b) = n ++ removeAll old b := by
  induction n with
  | nil => simp
  | cons x xs ih =>
    intro b
    have hx : numChar x = true := hn x (by simp)
    have hfalse : isPre old (x :: (xs ++ b)) = false := by
      cases old with
      | nil => exact absurd rfl hold
      | cons o os =>
        apply isPre_false_of_head
        intro he
        rw [← he] at hx
        rw [hnum o (by simp)] at hx
        exact Bool.false_ne_true hx
    rw [List.cons_append, removeAll_cons_neg hfalse, ih (fun c hc => hn c (by simp [hc]))]
    simp

theorem removeAll_split {old n : Chars} (hold : old ≠ [])
    (hnum : ∀ c ∈ old, numChar c = false) (hn : ∀ c ∈ n, numChar c = true)
    (hne : n ≠ []) :
    ∀ k a b, a.length ≤ k →
      removeAll old (a ++ n ++ b) = removeAll old a ++ n ++ removeAll old b := by
  intro k
  induction k with
  | zero =>
    intro a b ha
    have : a = [] := List.length_eq_zero.mp (Nat.le_zero.mp ha)
    subst this
    simpa using removeAll_numRun hold hnum hn b
  | succ k ih =>
    intro a b ha
    cases a with
    | nil => simpa using removeAll_numRun hold hnum hn b
    | cons c a2 =>
      have hshape : (c :: a2) ++ n ++ b = c :: (a2 ++ n ++ b) := by simp
      cases hif : isPre old (c :: (a2 ++ n ++ b)) with
      | true =>
        rcases le_or_lt old.length (a2.length + 1) with hle | hgt
        · have hpre2 : isPre old (c :: a2) = true := by
            apply isPre_of_le (x := c :: a2) (y := n ++ b)
            · simpa using hif
            · simpa using hle
          have ha2 : a2.length ≤ k := by
            have := ha
            simp only [List.length_cons] at this
            omega
          have h0 : old.length - 1 - a2.length = 0 := by omega
          have hdrop : List.drop (old.length - 1) (a2 ++ n ++ b) =
              List.drop (old.length - 1) a2 ++ n ++ b := by
            rw [List.append_assoc, List.drop_append_eq_append_drop, h0, List.drop_zero,
              List.append_assoc]
          have hlen : (List.drop (old.length - 1) a2).length ≤ k := by
            simp only [List.length_drop]
            omega
          rw [hshape, removeAll_cons_pos hif, hdrop, ih _ b hlen, removeAll_cons_pos hpre2]
        · exfalso
          have hxpre : isPre (c :: a2) old = true := by
            apply isPre_rev_of_le (y := n ++ b)
            · simpa using hif
            · simpa using Nat.le_of_lt hgt
          rcases isPre_iff.mp hxpre with ⟨t, ht⟩
          rcases isPre_iff.mp hif with ⟨s, hs⟩
          have htne : t ≠ [] := by
            intro h0
            rw [h0, List.append_nil] at ht
            rw [← ht] at hgt
            simp at hgt
          have hts : t ++ s = n ++ b := by
            have : (c :: a2) ++ (t ++ s) = (c :: a2) ++ (n ++ b) := by
              rw [← List.append_assoc, ht, hs]
              simp
            exact List.append_cancel_left this
          cases n with
          | nil => exact absurd rfl hne
          | cons x n2 =>
            cases t with
            | nil => exact absurd rfl htne
            | cons t0 t2 =>
              have ht0 : t0 = x := by
                have := congrArg (fun l => l.head?) hts
                simpa using this
              subst ht0
              have hmem : t0 ∈ old := by
                rw [← ht]
                simp
              have := hnum t0 hmem
              rw [hn t0 (by simp)] at this
              exact absurd this (by decide)
      | false =>
        have hneg2 : isPre old (c :: a2) = false := by
          cases hp : isPre old (c :: a2) with
          | false => rfl
          | true =>
            exfalso
            have h2 := isPre_append_right (w := n ++ b) hp
            rw [← List.append_assoc, hshape] at h2
            rw [h2] at hif
            exact absurd hif (by decide)
        rw [hshape, removeAll_cons_neg hif, removeAll_cons_neg hneg2,
          ih a2 b (by simp only [List.length_cons] at ha; omega)]
        simp

/-! ## `goodSplit` is preserved by each stage of the cleaning pipeline -/

theorem map_pyLower_of_numChars {n : Chars} (hn : ∀ c ∈ n, numChar c = true) :
    n.map pyLower = n := by
  induction n with
  | nil => rfl
  | cons x xs ih =>
    simp only [List.map_cons, List.cons.injEq]
    exact ⟨pyLower_of_numChar (hn x (by simp)), ih (fun c hc => hn c (by simp [hc]))⟩

theorem goodSplit_map_lower {n l : Chars} (hn : ∀ c ∈ n, numChar c = true)
    (h : goodSplit n l) : goodSplit n (l.map pyLower) := by
  rcases h with ⟨a, b, rfl, ha, hb⟩
  refine ⟨a.map pyLower, b.map pyLower, ?_, ?_, ?_⟩
  · simp [map_pyLower_of_numChars hn]
  · intro c hc
    rcases List.mem_map.mp hc with ⟨d, hd, rfl⟩
    cases hcl : numChar (pyLower d) with
    | false => rfl
    | true =>
      have hx := numChar_pyLower hcl
      rw [ha d hd] at hx
      exact hx.symm
  · intro c hc
    rcases List.mem_map.mp hc with ⟨d, hd, rfl⟩
    cases hcl : numChar (pyLower d) with
    | false => rfl
    | true =>
      have hx := numChar_pyLower hcl
      rw [hb d hd] at hx
      exact hx.symm

theorem goodSplit_dropWhile {n l : Chars} (hn : ∀ c ∈ n, numChar c = true)
    (hne : n ≠ []) (h : goodSplit n l) : goodSplit n (l.dropWhile pySpace) := by
  rcases h with ⟨a, b, rfl, ha, hb⟩
  induction a with
  | nil =>
    cases n with
    | nil => exact absurd rfl hne
    | cons x xs =>
      have hx : pySpace x = false := pySpace_of_numChar (hn x (by simp))
      refine ⟨[], b, ?_, by simp, hb⟩
      simp [List.dropWhile_cons, hx]
  | cons c a2 ih =>
    cases hc : pySpace c with
    | true =>
      have := ih (fun x hx => ha x (by simp [hx]))
      simpa [List.dropWhile_cons, hc] using this
    | false =>
      refine ⟨c :: a2, b, ?_, ha, hb⟩
      simp [List.dropWhile_cons, hc]

theorem goodSplit_reverse {n l : Chars} (h : goodSplit n l) :
    goodSplit n.reverse l.reverse := by
  rcases h with ⟨a, b, rfl, ha, hb⟩
  refine ⟨b.reverse, a.reverse, ?_, ?_, ?_⟩
  · simp
  · intro c hc; exact hb c (List.mem_reverse.mp hc)
  · intro c hc; exact ha c (List.mem_reverse.mp hc)

theorem goodSplit_pyStrip {n l : Chars} (hn : ∀ c ∈ n, numChar c = true)
    (hne : n ≠ []) (h : goodSplit n l) : goodSplit n (pyStrip l) := by
  have h1 := goodSplit_dropWhile hn hne h
  have h2 := goodSplit_reverse h1
  have hrn : ∀ c ∈ n.reverse, numChar c = true := fun c hc => hn c (List.mem_reverse.mp hc)
  have hrne : n.reverse ≠ [] := by simpa using hne
  have h3 := goodSplit_dropWhile hrn hrne h2
  have h4 := goodSplit_reverse h3
  rw [List.reverse_reverse] at h4
  exact h4

theorem goodSplit_removeAll {old n l : Chars} (hold : old ≠ [])
    (hnum : ∀ c ∈ old, numChar c = false) (hn : ∀ c ∈ n, numChar c = true)
    (hne : n ≠ []) (h : goodSplit n l) : goodSplit n (removeAll old l) := by
  rcases h with ⟨a, b, rfl, ha, hb⟩
  rw [removeAll_split hold hnum hn hne a.length a b (le_refl _)]
  refine ⟨removeAll old a, removeAll old b, rfl, ?_, ?_⟩
  · exact fun c hc => ha c (removeAll_subset c hc)
  · exact fun c hc => hb c (removeAll_subset c hc)

theorem goodSplit_foldRemove {n : Chars} (hn : ∀ c ∈ n, numChar c = true)
    (hne : n ≠ []) :
    ∀ (toks : List Chars) (l : Chars),
      (∀ t ∈ toks, t ≠ [] ∧ ∀ c ∈ t, numChar c = false) → goodSplit n l →
      goodSplit n (toks.foldl (fun acc t => removeAll t acc) l) := by
  intro toks
  induction toks with
  | nil => intro l _ h; simpa using h
  | cons t ts ih =>
    intro l htoks h
    simp only [List.foldl_cons]
    exact ih _ (fun u hu => htoks u (by simp [hu]))
      (goodSplit_removeAll (htoks t (by simp)).1 (htoks t (by simp)).2 hn hne h)

theorem goodSplit_cleanSteps {n l : Chars} (hn : ∀ c ∈ n, numChar c = true)
    (hne : n ≠ []) (h : goodSplit n l) : goodSplit n (cleanSteps l) := by
  have htoks : ∀ t ∈ strippedTokens, t ≠ [] ∧ ∀ c ∈ t, numChar c = false := by decide
  exact goodSplit_foldRemove hn hne strippedTokens l htoks h

/-! ## The cleaning pipeline on a well-split string -/

theorem cleanNumericStr_of_goodSplit {n : Chars} {s : String}
    (hn : ∀ c ∈ n, numChar c = true) (hne : n ≠ []) (h : goodSplit n s.data) :
    cleanNumericStr s = pyFloat n := by
  have h1 := goodSplit_map_lower hn h
  have h2 := goodSplit_pyStrip hn hne h1
  have h3 := goodSplit_cleanSteps hn hne h2
  have h4 := goodSplit_pyStrip hn hne h3
  rcases h4 with ⟨a, b, heq, ha, hb⟩
  unfold cleanNumericStr
  rw [heq, firstRun_goodParts ha hn hne hb]

theorem noDigits_map_lower {l : Chars} (h : noDigits l) : noDigits (l.map pyLower) := by
  intro c hc
  rcases List.mem_map.mp hc with ⟨d, hd, rfl⟩
  cases hcl : isDigitC (pyLower d) with
  | false => rfl
  | true =>
    have hx := isDigitC_pyLower hcl
    rw [h d hd] at hx
    exact hx.symm

theorem noDigits_of_subset {l m : Chars} (hsub : ∀ c ∈ m, c ∈ l) (h : noDigits l) :
    noDigits m := fun c hc => h c (hsub c hc)

theorem pyStrip_subset {l : Chars} : ∀ c ∈ pyStrip l, c ∈ l := by
  intro c hc
  unfold pyStrip at hc
  rw [List.mem_reverse] at hc
  have h1 := (List.dropWhile_sublist (l := (l.dropWhile pySpace).reverse) pySpace).subset hc
  rw [List.mem_reverse] at h1
  exact (List.dropWhile_sublist pySpace).subset h1

theorem foldRemove_subset :
    ∀ (toks : List Chars) (l : Chars) (c : Char),
      c ∈ toks.foldl (fun acc t => removeAll t acc) l → c ∈ l := by
  intro toks
  induction toks with
  | nil => intro l c hc; simpa using hc
  | cons t ts ih =>
    intro l c hc
    simp only [List.foldl_cons] at hc
    exact removeAll_subset c (ih _ c hc)

theorem cleanSteps_subset {l : Chars} : ∀ c ∈ cleanSteps l, c ∈ l :=
  fun c hc => foldRemove_subset strippedTokens l c hc

theorem pyFloat_of_noDigits {cs : Chars} (h : noDigits cs) : pyFloat cs = none := by
  unfold pyFloat
  rw [if_neg]
  intro ⟨_, hany⟩
  rcases List.any_eq_true.mp hany with ⟨c, hc, hdig⟩
  rw [h c hc] at hdig
  exact absurd hdig (by decide)

theorem cleanNumericStr_of_noDigits {s : String} (h : noDigits s.data) :
    cleanNumericStr s = none := by
  have h1 : noDigits (pyStrip (s.data.map pyLower)) :=
    noDigits_of_subset pyStrip_subset (noDigits_map_lower h)
  have h2 : noDigits (pyStrip (cleanSteps (pyStrip (s.data.map pyLower)))) :=
    noDigits_of_subset pyStrip_subset (noDigits_of_subset cleanSteps_subset h1)
  unfold cleanNumericStr
  cases hr : firstRun numChar (pyStrip (cleanSteps (pyStrip (s.data.map pyLower)))) with
  | none => rfl
  | some run =>
    exact pyFloat_of_noDigits (noDigits_of_subset (firstRun_subset hr) h2)

/-! ## Parsing lemmas for `parse_period`, `parseYMD` and `parse_date` -/

theorem splitOnChar_subset (sep : Char) :
    ∀ (l : Chars) (part : Chars), part ∈ splitOnChar sep l → ∀ c ∈ part, c ∈ l := by
  intro l
  induction l with
  | nil =>
    intro part hp c hc
    simp only [splitOnChar, List.mem_singleton] at hp
    subst hp
    simp at hc
  | cons x xs ih =>
    intro part hp c hc
    simp only [splitOnChar] at hp
    cases hsp : splitOnChar sep xs with
    | nil =>
      simp only [hsp, List.mem_singleton] at hp
      subst hp
      have : c = x := by simpa using hc
      simp [this]
    | cons p ps =>
      simp only [hsp] at hp
      by_cases hx : x = sep
      · simp only [if_pos hx] at hp
        rcases List.mem_cons.mp hp with hp | hp
        · subst hp; simp at hc
        · refine List.mem_cons_of_mem _ (ih part ?_ c hc)
          rw [hsp]
          exact hp
      · simp only [if_neg hx] at hp
        rcases List.mem_cons.mp hp with hp | hp
        · subst hp
          rcases List.mem_cons.mp hc with hc | hc
          · simp [hc]
          · refine List.mem_cons_of_mem _ (ih p ?_ c hc)
            rw [hsp]
            exact List.mem_cons_self p ps
        · refine List.mem_cons_of_mem _ (ih part ?_ c hc)
          rw [hsp]
          exact List.mem_cons_of_mem p hp

theorem parseYMD_of_noDigits {cs : Chars} (h : noDigits cs) : parseYMD cs = none := by
  unfold parseYMD
  split
  · rename_i ys ms ds hsp
    rw [if_neg]
    rintro ⟨hysne, _, hysall, _⟩
    cases ys with
    | nil => exact hysne rfl
    | cons y0 ys2 =>
      have hy0 : y0 ∈ cs :=
        splitOnChar_subset '-' cs (y0 :: ys2) (hsp ▸ by simp) y0 (by simp)
      have := List.all_eq_true.mp hysall y0 (by simp)
      rw [h y0 hy0] at this
      exact absurd this (by decide)
  · rfl

theorem parse_date_str_noDigits {s : String} (h : noDigits s.data) :
    parse_date (.dstr s) = none := by
  simp only [parse_date]
  by_cases hs : s = ""
  · rw [if_pos hs]
  · rw [if_neg hs]
    by_cases ht : s.data.contains 'T'
    · rw [if_pos ht]
      exact parseYMD_of_noDigits
        (noDigits_of_subset (fun c hc => (List.takeWhile_sublist _).subset hc) h)
    · rw [if_neg ht]
      exact parseYMD_of_noDigits h

theorem numValue_nonneg (cs : Chars) : 0 ≤ numValue cs := by
  unfold numValue
  positivity

theorem cleanNumericStr_shape (s : String) :
    cleanNumericStr s = none ∨ ∃ q, cleanNumericStr s = some q ∧ 0 ≤ q := by
  unfold cleanNumericStr
  cases firstRun numChar (pyStrip (cleanSteps (pyStrip (s.data.map pyLower)))) with
  | none => exact Or.inl rfl
  | some run =>
    by_cases hc : run.count '.' ≤ 1 ∧ run.any isDigitC
    · refine Or.inr ⟨numValue run, ?_, numValue_nonneg run⟩
      show pyFloat run = some (numValue run)
      unfold pyFloat
      rw [if_pos hc]
    · refine Or.inl ?_
      show pyFloat run = none
      unfold pyFloat
      rw [if_neg hc]

/-- C4: `parse_date` maps the ISO string `"2024-05-01T00:00:00Z"` and the bare
string `"2024-05-01"` to the same date, `None` to `None`, `"not-a-date"` to
`None`, and every digit-free ASCII string to `None`; the embedding is a total
function, mirroring the catch-all that prevents the code from raising. -/
theorem C4_parse_date :
    parse_date (.dstr "2024-05-01T00:00:00Z") = some ⟨2024, 5, 1⟩ ∧
    parse_date (.dstr "2024-05-01") = some ⟨2024, 5, 1⟩ ∧
    parse_date .dnone = none ∧
    parse_date (.dstr "not-a-date") = none ∧
    ∀ s : String, allAscii s.data → noDigits s.data → parse_date (.dstr s) = none := by
  refine ⟨by decide, by decide, rfl, by decide, ?_⟩
  intro s _ h
  exact parse_date_str_noDigits h

/-- Witness for C4 on the digit-free string `"nope"`. -/
theorem C4_witness : parse_date (.dstr "nope") = none :=
  C4_parse_date.2.2.2.2 "nope" (by decide) (by decide)

/-! ## Claim C3 -/

/-- C3: for every string built as token-join ++ number ++ token-join, where
the tokens come from the fixed stripped set and the number is a digits-and-
at-most-one-dot run, `clean_numeric_value` returns exactly that number; every
digit-free ASCII string yields `None`; and the stripping happens before
number extraction, so `"100m"` loses its `m` marker and yields `100.0`. -/
theorem C3_clean_numeric_value :
    (∀ pre n post : Chars, isTokenJoin pre → isTokenJoin post →
      n ≠ [] → (∀ c ∈ n, numChar c = true) → n.count '.' ≤ 1 → n.any isDigitC = true →
      clean_numeric_value (.pstr ⟨pre ++ n ++ post⟩) = some (numValue n)) ∧
    (∀ s : String, allAscii s.data → noDigits s.data →
      clean_numeric_value (.pstr s) = none) ∧
    clean_numeric_value (.pstr "100m") = some 100 := by
  refine ⟨?_, ?_, by with_unfolding_all decide⟩
  · intro pre n post hpre hpost hne hn hcount hany
    have htok : ∀ t ∈ strippedTokens, ∀ c ∈ t, numChar c = false := by decide
    have hprec : ∀ c ∈ pre, numChar c = false := by
      rcases hpre with ⟨ts, hts, rfl⟩
      intro c hc
      rcases List.mem_flatten.mp hc with ⟨t, ht, hct⟩
      exact htok t (hts t ht) c hct
    have hpostc : ∀ c ∈ post, numChar c = false := by
      rcases hpost with ⟨ts, hts, rfl⟩
      intro c hc
      rcases List.mem_flatten.mp hc with ⟨t, ht, hct⟩
      exact htok t (hts t ht) c hct
    have hsplit : goodSplit n (String.mk (pre ++ n ++ post)).data :=
      ⟨pre, post, rfl, hprec, hpostc⟩
    show cleanNumericStr ⟨pre ++ n ++ post⟩ = some (numValue n)
    rw [cleanNumericStr_of_goodSplit hn hne hsplit]
    unfold pyFloat
    rw [if_pos ⟨hcount, hany⟩]
  · intro s _ h
    show cleanNumericStr s = none
    exact cleanNumericStr_of_noDigits h

/-- Witness for C3 on `"$" ++ "2.5" ++ "m"`. -/
theorem C3_witness :
    clean_numeric_value (.pstr ⟨"$".data ++ "2.5".data ++ "m".data⟩) = some (5 / 2) := by
  have h := C3_clean_numeric_value.1 "$".data "2.5".data "m".data
    ⟨["$".data], by decide, rfl⟩ ⟨["m".data], by decide, rfl⟩
    (by decide) (by decide) (by decide) (by decide)
  rw [h]
  with_unfolding_all decide

/-! ## Claim C5 -/

/-- C5: every `/miner/*` and `/unlicensedminer/*` handler, given a request
with neither a `userId` cookie nor an `X-User-ID` header, answers 401 with an
error body and performs no remote database or storage call (empty trace). -/
theorem C5_auth_guard :
    (∀ db, get_license ⟨none, none⟩ db = (.err 401 "User ID not provided", [])) ∧
    (∀ roy, get_royalty ⟨none, none⟩ roy = (.err 401 "User ID not provided", [])) ∧
    (∀ cs, miner_get_announcements ⟨none, none⟩ cs =
      (.err 401 "User ID not provided", [])) ∧
    (∀ st, get_user_status ⟨none, none⟩ st = (.err 401 "Authentication required", [])) ∧
    (∀ (α : Type) (row : Option α), get_application_details ⟨none, none⟩ row =
      (.err 401 "Authentication required", [])) ∧
    (∀ (α : Type) (docs : List α), get_documents ⟨none, none⟩ docs =
      (.err 401 "Authentication required", [])) ∧
    (∀ file descr uuidStr urlOf uploadOk,
      upload_document ⟨none, none⟩ file descr uuidStr urlOf uploadOk =
        (.err 401 "Authentication required", [])) ∧
    (∀ cs, unlic_get_announcements ⟨none, none⟩ cs =
      (.err 401 "Authentication required", [])) :=
  ⟨fun _ => rfl, fun _ => rfl, fun _ => rfl, fun _ => rfl, fun _ _ => rfl,
   fun _ _ => rfl, fun _ _ _ _ _ => rfl, fun _ => rfl⟩

/-! ## Claim C6 -/

/-- C6: a contact submission in which any of name, email or message is
missing or empty is answered 400 with an error body and performs no insert
(the trace is empty, so the contact table is untouched). -/
theorem C6_contact_validation (p : ContactPayload) (ins : List ContactRow)
    (h : falsyStr p.name = true ∨ falsyStr p.email = true ∨ falsyStr p.message = true) :
    submit_contact p ins = (.err 400 "Missing required fields", []) := by
  have hcond : (falsyStr p.name || falsyStr p.email || falsyStr p.message) = true := by
    rcases h with h | h | h <;> simp [h]
  unfold submit_contact
  rw [if_pos hcond]

/-- Witness for C6: a payload with a missing email. -/
theorem C6_witness :
    submit_contact ⟨some "Alice", none, some "Hello"⟩ [] =
      (.err 400 "Missing required fields", []) :=
  C6_contact_validation ⟨some "Alice", none, some "Hello"⟩ [] (Or.inr (Or.inl (by decide)))

/-! ## Claim C9 -/

/-- C9: when the `/contact/get` query succeeds with zero rows the handler
answers 500 with the error body `"Failed to fetch contacts"`; a 200 answer
carrying the rows occurs exactly when at least one row exists. -/
theorem C9_contacts_empty (rows : List ContactRow) :
    (rows = [] → get_contacts rows = (.err 500 "Failed to fetch contacts", [.selContact])) ∧
    ((get_contacts rows).1 = .ok 200 rows ↔ rows ≠ []) := by
  constructor
  · rintro rfl
    rfl
  · cases rows with
    | nil => simp [get_contacts]
    | cons r rs => simp [get_contacts]

/-- Witness for C9 at the empty table. -/
theorem C9_witness :
    get_contacts [] = (.err 500 "Failed to fetch contacts", [.selContact]) :=
  (C9_contacts_empty []).1 rfl

/-! ## Claim C10 -/

/-- C10: on any string input `clean_numeric_value` returns `None` or a
non-negative number (the `[\d.]+` pattern cannot capture a minus sign), so
the string `"-100"` yields `100.0`, while the numeric input `-100` keeps its
sign and yields `-100.0`. -/
theorem C10_nonneg :
    (∀ s : String, clean_numeric_value (.pstr s) = none ∨
      ∃ q, clean_numeric_value (.pstr s) = some q ∧ 0 ≤ q) ∧
    clean_numeric_value (.pstr "-100") = some 100 ∧
    clean_numeric_value (.pint (-100)) = some (-100) := by
  refine ⟨fun s => cleanNumericStr_shape s, by with_unfolding_all decide,
    by with_unfolding_all decide⟩

/-! ## Claim C1 (corrected) -/

/-- C7: a file whose extension is outside `{pdf, png, jpg, jpeg}` makes the
license flow's `save_file` return a relay failure with no storage call at
all, while the unlicensed-miner `/upload-document` handler performs no
extension check on the same file: it uploads it and inserts a document row,
answering 200. -/
theorem C7_extension_inconsistency (f : FileUpload)
    (hext : allowed_file f.filename = false) (hfn : f.filename ≠ "")
    (buckets : Option (List String)) (uuidStr : String) (urlOf : String → String)
    (uploadOk : Bool) (uid : String) (huid : uid ≠ "") (descr : Option String)
    (uuid2 : String) (urlOf2 : String → String) :
    save_file (some f) buckets uuidStr urlOf uploadOk = (none, []) ∧
    upload_document ⟨some uid, none⟩ (some f) descr uuid2 urlOf2 true =
      (.ok 200 (urlOf2 (uuid2 ++ "." ++ lastSplitComponent f.filename)),
       [.upload (uuid2 ++ "." ++ lastSplitComponent f.filename),
        .getUrl (uuid2 ++ "." ++ lastSplitComponent f.filename),
        .insDocuments uid f.filename]) := by
  constructor
  · simp [save_file, hext]
  · have h2 : get_user_id ⟨some uid, none⟩ = some uid := by
      simp [get_user_id, pyOr, huid]
    simp [upload_document, falsyStr, h2, huid, hfn]

/-- Witness for C7 with the disallowed file `report.exe`. -/
theorem C7_witness :
    save_file (some ⟨"report.exe", "application/x-msdownload", "bytes"⟩) (some [])
        "u-1" (fun nm => "public://" ++ nm) true = (none, []) ∧
    upload_document ⟨some "11", none⟩
        (some ⟨"report.exe", "application/x-msdownload", "bytes"⟩) none "u-2"
        (fun nm => "public://" ++ nm) true =
      (.ok 200 ("public://" ++ ("u-2" ++ "." ++ lastSplitComponent "report.exe")),
       [.upload ("u-2" ++ "." ++ lastSplitComponent "report.exe"),
        .getUrl ("u-2" ++ "." ++ lastSplitComponent "report.exe"),
        .insDocuments "11" "report.exe"]) :=
  C7_extension_inconsistency ⟨"report.exe", "application/x-msdownload", "bytes"⟩
    (by decide) (by decide) (some []) "u-1" (fun nm => "public://" ++ nm) true
    "11" (by decide) none "u-2" (fun nm => "public://" ++ nm)

/-! ## Claim C8 (corrected) -/

end CeylonMine
